import Mathlib

/-!
Verification development for the resume-formatter repository.

The embedding models the two core modules:

* `src/docx_modifier.py` (class `DocXMLModifier`): section matching and
  format-preserving table rewriting over an XML element tree.
* `src/docx_parser.py` (class `DocxXMLParser`): structural extraction of
  tables from a parsed document.

XML elements (Python `xml.etree.ElementTree.Element`) are modelled by the
inductive type `Xml` below: a tag, an optional text payload (`Element.text`)
and an ordered list of children.  `findall(".//w:x")`/`find(".//w:x")` are
modelled by `findallTag`/`findFirstTag`, which search all strict descendants
in document (preorder) order, exactly as ElementTree does.  Namespace-qualified
tags are represented by their prefixed names ("w:tr", "w:tc", ...), which is a
bijective renaming of ElementTree's `{namespace}tag` strings.

File-system, zip-archive and XML-(de)serialisation steps of the source are
outside the embedding; `modifyDocx` models `DocXMLModifier.modify_docx` from
the point where the document tree and the schema are in memory, acting on the
list of tables of the document (the only elements the code mutates).

Mutation of the live tree is modelled functionally.  One deliberate domain
restriction: `updateTableContent` rejects (with an error) tables in which a
`w:tr` element occurs nested strictly below a direct child of the table.
Word documents never contain such tables (rows are direct children of
`w:tbl`), every theorem below either carries this success as a hypothesis or
holds trivially on the error, and on the accepted domain the model performs
exactly the reads, in-place row updates, removals and appends of
`_update_table_content`, including its failure modes (`IndexError` on a
row-less table, `KeyError` on a bullet without `"text"`, `ValueError` when
`cell.remove` targets a non-direct child, `IndexError` when a template row is
needed but no bullet row exists).
-/

inductive Xml : Type where
  | node : String → Option String → List Xml → Xml

def Xml.tag : Xml → String
  | .node t _ _ => t

def Xml.text : Xml → Option String
  | .node _ tx _ => tx

def Xml.children : Xml → List Xml
  | .node _ _ c => c

/-- Qualified tag of a table row element (`w:tr`). -/
def trTag : String := "w:tr"

/-- Qualified tag of a table cell element (`w:tc`). -/
def tcTag : String := "w:tc"

/-- Qualified tag of a paragraph element (`w:p`). -/
def pTag : String := "w:p"

/-- Qualified tag of a run element (`w:r`). -/
def rTag : String := "w:r"

/-- Qualified tag of a text element (`w:t`). -/
def tTag : String := "w:t"

/-- Qualified tag of a paragraph-properties element (`w:pPr`). -/
def pPrTag : String := "w:pPr"

/-- Qualified tag of a run-properties element (`w:rPr`). -/
def rPrTag : String := "w:rPr"

mutual
/-- Strict descendants of an element in document (preorder) order, the
element order produced by ElementTree's `element.findall(".//tag")` before
tag filtering. -/
def descList : Xml → List Xml
  | .node _ _ cs => descListL cs

/-- Descendant closure of a list of sibling elements, in document order. -/
def descListL : List Xml → List Xml
  | [] => []
  | c :: rest => c :: (descList c ++ descListL rest)
end

/-- Model of `element.findall(".//" + tag, ns)`: all strict descendants with
the given tag, in document order. -/
def findallTag (tag : String) (x : Xml) : List Xml :=
  (descList x).filter (fun c => c.tag == tag)

/-- Model of `element.find(".//" + tag, ns)`: the first strict descendant
with the given tag in document order, if any. -/
def findFirstTag (tag : String) (x : Xml) : Option Xml :=
  (findallTag tag x).head?

/-- Whitespace class of Python's `re` module `\s` and `str.strip()` on ASCII
input: space, tab, newline, carriage return, vertical tab, form feed. -/
def pyIsSpace (c : Char) : Bool :=
  c == ' ' || c == '\t' || c == '\n' || c == '\r' || c == '\x0b' || c == '\x0c'

/-- Both-ends whitespace trim on a character list, Python's `str.strip()`. -/
def stripChars (l : List Char) : List Char :=
  ((l.dropWhile pyIsSpace).reverse.dropWhile pyIsSpace).reverse

/-- Model of `str.strip()`. -/
def pyStrip (s : String) : String :=
  String.mk (stripChars s.data)

/-- Model of `re.sub(r"\s+", " ", ·)`: replace every maximal run of
whitespace by a single space.  The boolean argument records whether the
previous character belonged to a whitespace run already replaced. -/
def collapseWs : Bool → List Char → List Char
  | _, [] => []
  | prevSpace, c :: rest =>
    if pyIsSpace c then
      if prevSpace then collapseWs true rest
      else ' ' :: collapseWs true rest
    else c :: collapseWs false rest

/-- Character-list core of `DocXMLModifier._normalize_text`:
`re.sub(r"\s+", " ", text.lower().strip())`.  `str.lower()` is modelled by
`Char.toLower`, the same ASCII mapping. -/
def normalizeList (l : List Char) : List Char :=
  collapseWs false (stripChars (l.map Char.toLower))

/-- Model of `DocXMLModifier._normalize_text` (docx_modifier.py:160-171). -/
def normalizeText (s : String) : String :=
  String.mk (normalizeList s.data)

/-- Prefix test on character lists (auxiliary to the substring test). -/
def startsWithList : List Char → List Char → Bool
  | [], _ => true
  | _ :: _, [] => false
  | a :: as, b :: bs => a == b && startsWithList as bs

/-- Occurrence of `needle` as a contiguous substring, on character lists. -/
def strInAux (needle : List Char) : List Char → Bool
  | [] => startsWithList needle []
  | c :: rest => startsWithList needle (c :: rest) || strInAux needle rest

/-- Model of Python's `needle in hay` on strings: contiguous substring
containment (true for the empty needle). -/
def strIn (needle hay : String) : Bool :=
  strInAux needle.data hay.data

/-- Model of a schema bullet point: a JSON object whose `"text"` key may be
absent (`none`).  The optional `min_chars`/`max_chars`/`keywords` keys are
never read by the modifier and are omitted. -/
structure BulletPoint where
  text? : Option String
deriving DecidableEq

/-- Model of a schema section (experience or project): the three keys the
modifier reads, each possibly absent. -/
structure Section where
  title? : Option String
  company? : Option String
  bullet_points? : Option (List BulletPoint)
deriving DecidableEq

/-- Model of the tailored schema: the two keys `modify_docx` reads, each
possibly absent. -/
structure Schema where
  experiences? : Option (List Section)
  projects? : Option (List Section)
deriving DecidableEq

/-- Model of the list comprehension shared by `_extract_table_text` and
`_extract_row_text`: the stripped text of every `w:t` descendant whose text
is present and not whitespace-only. -/
def strippedTexts (x : Xml) : List String :=
  (findallTag tTag x).filterMap (fun t =>
    match t.text with
    | none => none
    | some s => if s ≠ "" && pyStrip s ≠ "" then some (pyStrip s) else none)

/-- Model of `DocXMLModifier._extract_table_text` (docx_modifier.py:97-115):
space-joined stripped texts of all `w:t` descendants of a table. -/
def extractTableText (table : Xml) : String :=
  String.intercalate " " (strippedTexts table)

/-- Model of `DocXMLModifier._extract_row_text` (docx_modifier.py:267-280):
space-joined stripped texts of all `w:t` descendants of a row. -/
def extractRowText (row : Xml) : String :=
  String.intercalate " " (strippedTexts row)

/-- Model of the bullet-point fallback block of `_find_matching_section`
(docx_modifier.py:144-156): at least one bullet point, and at least 50% of
the bullets have normalized text occurring in the normalized table text.
Python's float comparison `bullet_matches / total_bullets >= 0.5` is exact
at this threshold and is modelled by `total ≤ 2 * matches`. -/
def bulletFallback (tt : String) (s : Section) : Bool :=
  let bps := s.bullet_points?.getD []
  decide (0 < bps.length) &&
    decide (bps.length ≤
      2 * (bps.filter (fun b => strIn (normalizeText (b.text?.getD "")) tt)).length)

/-- Loop of `DocXMLModifier._find_matching_section` (docx_modifier.py:131-158)
over the section list; `tt` is the already-normalized table text.  Mirrors the
source control flow: when both title and company are non-empty only the
two-substring test returns early (the `elif` title-only test is skipped), and
the bullet fallback runs whenever no early return happened. -/
def findMatchingSectionAux (tt : String) : List Section → Option Section
  | [] => none
  | s :: rest =>
    let title := normalizeText (s.title?.getD "")
    let company := normalizeText (s.company?.getD "")
    if title != "" && company != "" then
      if strIn title tt && strIn company tt then some s
      else if bulletFallback tt s then some s
      else findMatchingSectionAux tt rest
    else if title != "" && strIn title tt then some s
    else if bulletFallback tt s then some s
    else findMatchingSectionAux tt rest

/-- Model of `DocXMLModifier._find_matching_section` (docx_modifier.py:117-158). -/
def findMatchingSection (tableText : String) (sections : List Section) : Option Section :=
  findMatchingSectionAux (normalizeText tableText) sections

/-- Per-section matching predicate: the disjunction of the three rules the
loop body of `_find_matching_section` applies to one section.  Rule 2 (title
only) requires the normalized company to be empty, because in the source it
is the `elif` branch of the `if title and company:` test. -/
def sectionMatches (tt : String) (s : Section) : Bool :=
  let title := normalizeText (s.title?.getD "")
  let company := normalizeText (s.company?.getD "")
  (title != "" && company != "" && strIn title tt && strIn company tt)
    || (title != "" && company == "" && strIn title tt)
    || bulletFallback tt s

mutual
/-- Replacement of the first strict descendant (document order) carrying the
given tag by `v`; `none` when no such descendant exists.  This models an
in-place mutation of that descendant in ElementTree. -/
def replaceFirst (tag : String) (v : Xml) : Xml → Option Xml
  | .node t tx cs =>
    match replaceFirstL tag v cs with
    | some cs' => some (.node t tx cs')
    | none => none

/-- List form of `replaceFirst` over sibling elements. -/
def replaceFirstL (tag : String) (v : Xml) : List Xml → Option (List Xml)
  | [] => none
  | c :: rest =>
    if c.tag == tag then some (v :: rest)
    else
      match replaceFirst tag v c with
      | some c' => some (c' :: rest)
      | none =>
        match replaceFirstL tag v rest with
        | some rest' => some (c :: rest')
        | none => none
end

/-- Total version of `replaceFirst`: the element unchanged when the tag does
not occur. -/
def replaceFirstTag (tag : String) (v : Xml) (x : Xml) : Xml :=
  (replaceFirst tag v x).getD x

/-- Presence of a strict descendant with the given tag. -/
def hasDescTag (tag : String) (x : Xml) : Bool :=
  !(findallTag tag x).isEmpty

/-- Model of `cell.remove(paragraph)` where `paragraph` is the first `w:p`
descendant of the cell (already known to exist): ElementTree's `remove`
deletes by object identity among direct children, so it succeeds exactly when
that first descendant is itself a direct child, and raises `ValueError`
otherwise. -/
def removeFirstP : List Xml → Except String (List Xml)
  | [] => .error "ValueError: list.remove(x): x not in list"
  | c :: rest =>
    if c.tag == pTag then .ok rest
    else if hasDescTag pTag c then .error "ValueError: list.remove(x): x not in list"
    else
      match removeFirstP rest with
      | .ok rest' => .ok (c :: rest')
      | .error e => .error e

/-- Model of `DocXMLModifier._update_row_content` (docx_modifier.py:217-265).
Finds the first `w:tc` descendant (the cell) and its first `w:p` descendant;
when either is missing the row is returned untouched.  Otherwise captures the
paragraph-properties and first-run run-properties subtrees, builds the new
paragraph `[pPr?] ++ [run [rPr?] ++ [text]]`, removes the old paragraph from
the cell and appends the new one at the end of the cell. -/
def updateRowContent (row : Xml) (newText : String) : Except String Xml :=
  match findFirstTag tcTag row with
  | none => .ok row
  | some cell =>
    match findFirstTag pTag cell with
    | none => .ok row
    | some paragraph =>
      let pPr? := findFirstTag pPrTag paragraph
      let run? := findFirstTag rTag paragraph
      let rPr? :=
        match run? with
        | some r => findFirstTag rPrTag r
        | none => none
      let newRun := Xml.node rTag none (rPr?.toList ++ [Xml.node tTag (some newText) []])
      let newParagraph := Xml.node pTag none (pPr?.toList ++ [newRun])
      match removeFirstP cell.children with
      | .error e => .error e
      | .ok cs' =>
        .ok (replaceFirstTag tcTag (Xml.node cell.tag cell.text (cs' ++ [newParagraph])) row)

/-- Model of `bullet_points[i]["text"]`: `KeyError` when the key is absent. -/
def getBulletText (b : BulletPoint) : Except String String :=
  match b.text? with
  | some t => .ok t
  | none => .error "KeyError: text"

/-- Error-propagating map over a list, the effect of a Python `for` loop in
which each iteration may raise: the first raised error aborts the loop. -/
def exceptMap (f : α → Except String β) : List α → Except String (List β)
  | [] => .ok []
  | a :: rest =>
    match f a with
    | .error e => .error e
    | .ok b =>
      match exceptMap f rest with
      | .error e => .error e
      | .ok bs => .ok (b :: bs)

/-- Header-detection index of `_update_table_content`
(docx_modifier.py:187-194): 1 when the raw (non-normalized) text of the first
row contains the section's raw title or raw company as a substring (absent
keys default to `""`, which Python treats as a substring of everything),
0 otherwise. -/
def startRowIndex (r0 : Xml) (s : Section) : Nat :=
  if strIn (s.title?.getD "") (extractRowText r0)
      || strIn (s.company?.getD "") (extractRowText r0) then 1 else 0

/-- Update phase of `_update_table_content` (docx_modifier.py:199-206,
`i < len(bullet_points)` branch): each of the first `len(bullet_points)`
bullet rows is rewritten in place to the corresponding bullet's `"text"`
(raising `KeyError` when the key is absent). -/
def rewriteExisting (bulletRows : List Xml) (bps : List BulletPoint) :
    Except String (List Xml) :=
  exceptMap (fun rb => (getBulletText rb.2).bind (fun t => updateRowContent rb.1 t))
    ((bulletRows.take bps.length).zip bps)

/-- Append phase of `_update_table_content` (docx_modifier.py:208-215): when
there are more bullets than bullet rows, each excess bullet is materialised by
cloning `bullet_rows[-1]` — whose in-memory state at that point is its already
updated form, the last element of `updated` — and rewriting the clone's
content; a missing template row raises `IndexError`. -/
def synthesizeRows (bulletRowsLen : Nat) (updated : List Xml)
    (bps : List BulletPoint) : Except String (List Xml) :=
  if bulletRowsLen < bps.length then
    match updated.getLast? with
    | none => .error "IndexError: list index out of range"
    | some tmpl =>
      exceptMap (fun b => (getBulletText b).bind (fun t => updateRowContent tmpl t))
        (bps.drop bulletRowsLen)
  else .ok []

/-- Reassembly of the table's children after the row loop: the first `skip`
row children (the detected header) are kept, the next row children are
replaced in place by the elements of `repl` (the updated bullet rows), and row
children beyond `repl` are removed; non-row children stay untouched in place. -/
def rebuildRows : List Xml → Nat → List Xml → List Xml
  | [], _, _ => []
  | c :: rest, skip, repl =>
    if c.tag == trTag then
      match skip, repl with
      | Nat.succ k, _ => c :: rebuildRows rest k repl
      | 0, r :: rs => r :: rebuildRows rest 0 rs
      | 0, [] => rebuildRows rest 0 []
    else c :: rebuildRows rest skip repl

/-- Model of `DocXMLModifier._update_table_content` (docx_modifier.py:173-215).
Tables with a `w:tr` descendant nested strictly inside a child are outside the
modelled domain and rejected (see the module docstring); on all other tables
this reproduces the source: row lookup, `rows[0]` header detection
(`IndexError` on a row-less table), in-place rewrite of the first
`len(bullet_points)` bullet rows, removal of the remaining bullet rows, and
appending of cloned rows for excess bullets. -/
def updateTableContent (table : Xml) (sec : Section) : Except String Xml :=
  if !(table.children.all (fun c => (findallTag trTag c).isEmpty)) then
    .error "model: nested table rows are outside the embedded domain"
  else
    let rows := findallTag trTag table
    let bps := sec.bullet_points?.getD []
    match rows with
    | [] => .error "IndexError: list index out of range"
    | r0 :: rest =>
      let startIdx := startRowIndex r0 sec
      let bulletRows := (r0 :: rest).drop startIdx
      match rewriteExisting bulletRows bps with
      | .error e => .error e
      | .ok updated =>
        match synthesizeRows bulletRows.length updated bps with
        | .error e => .error e
        | .ok appended =>
          .ok (Xml.node table.tag table.text
            (rebuildRows table.children startIdx updated ++ appended))

/-- Model of `DocXMLModifier._modify_sections` (docx_modifier.py:75-95),
acting on the list of the document's tables: each table's text is extracted
and matched; matched tables are rewritten, unmatched tables left untouched;
a raised error aborts the pass. -/
def modifySections (tables : List Xml) (allSections : List Section) :
    Except String (List Xml) :=
  exceptMap (fun table =>
    match findMatchingSection (extractTableText table) allSections with
    | some s => updateTableContent table s
    | none => .ok table) tables

/-- Model of `DocXMLModifier.modify_docx` (docx_modifier.py:28-73) from the
point where the document tree and the schema are in memory: experiences and
projects are concatenated (absent keys defaulting to `[]`, without any
validation) and the document's tables are modified. -/
def modifyDocx (schema : Schema) (tables : List Xml) : Except String (List Xml) :=
  modifySections tables (schema.experiences?.getD [] ++ schema.projects?.getD [])

/-- Model of `DocxXMLParser._extract_paragraph_text` (docx_parser.py:219-230):
separator-free concatenation of the text of every `w:t` descendant, in
document order, skipping absent (`None`) and empty texts. -/
def extractParagraphText (e : Xml) : String :=
  String.join ((findallTag tTag e).filterMap (fun t =>
    match t.text with
    | none => none
    | some s => if s ≠ "" then some s else none))

/-- Snapshot of one table produced by `DocxXMLParser._parse_tables`. -/
structure TableInfo where
  rows : List (List String)
  total_rows : Nat
  total_columns : Nat
deriving DecidableEq

/-- Per-table body of `DocxXMLParser._parse_tables` (docx_parser.py:147-175):
`total_rows` is the number of `w:tr` descendants, `total_columns` the running
maximum of the per-row `w:tc` counts, and each row contributes the list of
its cells' extracted texts. -/
def parseTable (table : Xml) : TableInfo :=
  let rows := findallTag trTag table
  let fold := rows.foldl
    (fun (acc : Nat × List (List String)) row =>
      let cells := findallTag tcTag row
      (max acc.1 cells.length, acc.2 ++ [cells.map extractParagraphText]))
    (0, [])
  { rows := fold.2, total_rows := rows.length, total_columns := fold.1 }

theorem toNat_ofNat_valid (n : Nat) (h : n.isValidChar) : (Char.ofNat n).toNat = n := by
  simp [Char.ofNat, h, Char.ofNatAux, Char.toNat, UInt32.toNat]

theorem toLower_of_upper (c : Char) (h : c.toNat ≥ 65 ∧ c.toNat ≤ 90) :
    c.toLower = Char.ofNat (c.toNat + 32) := by
  unfold Char.toLower
  rw [if_pos h]

theorem toLower_of_not_upper (c : Char) (h : ¬(c.toNat ≥ 65 ∧ c.toNat ≤ 90)) :
    c.toLower = c := by
  unfold Char.toLower
  rw [if_neg h]

theorem toLower_toLower (c : Char) : c.toLower.toLower = c.toLower := by
  by_cases h : c.toNat ≥ 65 ∧ c.toNat ≤ 90
  · rw [toLower_of_upper c h]
    have hv : (c.toNat + 32).isValidChar := by
      unfold Nat.isValidChar
      left
      omega
    have ht : (Char.ofNat (c.toNat + 32)).toNat = c.toNat + 32 := toNat_ofNat_valid _ hv
    apply toLower_of_not_upper
    rw [ht]
    omega
  · rw [toLower_of_not_upper c h, toLower_of_not_upper c h]

theorem collapseWs_cons_sp_false {a : Char} (l : List Char) (hsp : pyIsSpace a = true) :
    collapseWs false (a :: l) = ' ' :: collapseWs true l := by
  simp [collapseWs, hsp]

theorem collapseWs_cons_sp_true {a : Char} (l : List Char) (hsp : pyIsSpace a = true) :
    collapseWs true (a :: l) = collapseWs true l := by
  simp [collapseWs, hsp]

theorem collapseWs_cons_nsp {a : Char} (l : List Char) (b : Bool) (hsp : pyIsSpace a = false) :
    collapseWs b (a :: l) = a :: collapseWs false l := by
  simp [collapseWs, hsp]

theorem getLast?_cons_ne {α : Type} {a : α} {l : List α} (h : l ≠ []) :
    (a :: l).getLast? = l.getLast? := by
  cases l with
  | nil => exact absurd rfl h
  | cons b rs => rw [List.getLast?_cons_cons]

theorem mem_dropWhile {c : Char} (p : Char → Bool) :
    ∀ {l : List Char}, c ∈ l.dropWhile p → c ∈ l := by
  intro l
  induction l with
  | nil => intro h; simp at h
  | cons a rest ih =>
    intro h
    by_cases hp : p a
    · rw [List.dropWhile_cons_of_pos hp] at h
      exact List.mem_cons_of_mem a (ih h)
    · rw [List.dropWhile_cons_of_neg hp] at h
      exact h

/-- Head of a list is not whitespace (vacuously true for the empty list). -/
def headNotSp (l : List Char) : Prop :=
  ∀ c, l.head? = some c → pyIsSpace c = false

/-- Last element of a list is not whitespace (vacuously true for the empty list). -/
def lastNotSp (l : List Char) : Prop :=
  ∀ c, l.getLast? = some c → pyIsSpace c = false

theorem mem_collapseWs {c : Char} :
    ∀ (b : Bool) (l : List Char), c ∈ collapseWs b l → c = ' ' ∨ c ∈ l := by
  intro b l
  induction l generalizing b with
  | nil => intro h; simp [collapseWs] at h
  | cons a rest ih =>
    intro h
    by_cases hsp : pyIsSpace a
    · cases b with
      | true =>
        rw [collapseWs_cons_sp_true rest hsp] at h
        rcases ih true h with h1 | h1
        · exact Or.inl h1
        · exact Or.inr (List.mem_cons_of_mem _ h1)
      | false =>
        rw [collapseWs_cons_sp_false rest hsp] at h
        rcases List.mem_cons.mp h with h1 | h1
        · exact Or.inl h1
        · rcases ih true h1 with h2 | h2
          · exact Or.inl h2
          · exact Or.inr (List.mem_cons_of_mem _ h2)
    · rw [collapseWs_cons_nsp rest b (Bool.of_not_eq_true hsp)] at h
      rcases List.mem_cons.mp h with h1 | h1
      · exact Or.inr (h1 ▸ List.mem_cons_self a rest)
      · rcases ih false h1 with h2 | h2
        · exact Or.inl h2
        · exact Or.inr (List.mem_cons_of_mem _ h2)

theorem mem_stripChars {c : Char} {l : List Char} (h : c ∈ stripChars l) : c ∈ l := by
  unfold stripChars at h
  rw [List.mem_reverse] at h
  have h1 := mem_dropWhile pyIsSpace h
  rw [List.mem_reverse] at h1
  exact mem_dropWhile pyIsSpace h1

theorem headNotSp_dropWhile (l : List Char) : headNotSp (l.dropWhile pyIsSpace) := by
  induction l with
  | nil => intro c hc; simp at hc
  | cons a rest ih =>
    by_cases hsp : pyIsSpace a
    · rw [List.dropWhile_cons_of_pos hsp]
      exact ih
    · rw [List.dropWhile_cons_of_neg hsp]
      intro c hc
      simp at hc
      rw [← hc]
      exact Bool.of_not_eq_true hsp

theorem getLast?_dropWhile (p : Char → Bool) :
    ∀ (l : List Char), l.dropWhile p ≠ [] → (l.dropWhile p).getLast? = l.getLast? := by
  intro l
  induction l with
  | nil => intro h; simp at h
  | cons a rest ih =>
    intro h
    by_cases hp : p a
    · rw [List.dropWhile_cons_of_pos hp] at h ⊢
      have hrest : rest ≠ [] := by
        intro he
        rw [he] at h
        simp at h
      rw [ih h]
      exact (getLast?_cons_ne hrest).symm
    · rw [List.dropWhile_cons_of_neg hp]

theorem headNotSp_stripChars (l : List Char) : headNotSp (stripChars l) := by
  unfold stripChars
  intro c hc
  rw [List.head?_reverse] at hc
  by_cases hne : ((l.dropWhile pyIsSpace).reverse.dropWhile pyIsSpace) = []
  · rw [hne] at hc; simp at hc
  · rw [getLast?_dropWhile pyIsSpace _ hne, List.getLast?_reverse] at hc
    exact headNotSp_dropWhile l c hc

theorem lastNotSp_stripChars (l : List Char) : lastNotSp (stripChars l) := by
  unfold stripChars
  intro c hc
  rw [List.getLast?_reverse] at hc
  exact headNotSp_dropWhile _ c hc

theorem headNotSp_collapseWs {l : List Char} (h : headNotSp l) :
    headNotSp (collapseWs false l) := by
  cases l with
  | nil => intro c hc; simp [collapseWs] at hc
  | cons a rest =>
    have ha : pyIsSpace a = false := h a rfl
    rw [collapseWs_cons_nsp rest false ha]
    intro c hc
    simp at hc
    exact hc ▸ ha

theorem lastNotSp_collapseWs :
    ∀ (l : List Char) (b : Bool), lastNotSp l →
      lastNotSp (collapseWs b l) ∧ (l ≠ [] → collapseWs b l ≠ []) := by
  intro l
  induction l with
  | nil =>
    intro b _
    exact ⟨fun c hc => by simp [collapseWs] at hc, fun h => absurd rfl h⟩
  | cons a rest ih =>
    intro b hlast
    by_cases hsp : pyIsSpace a
    · cases rest with
      | nil =>
        exfalso
        have hfalse := hlast a (by simp)
        rw [hfalse] at hsp
        exact Bool.false_ne_true (by simp at hsp)
      | cons r rs =>
        have hrest : lastNotSp (r :: rs) := by
          intro c hc
          exact hlast c (by rw [List.getLast?_cons_cons]; exact hc)
        have ihr := ih true hrest
        have hne : collapseWs true (r :: rs) ≠ [] := ihr.2 (by simp)
        cases b with
        | true =>
          rw [collapseWs_cons_sp_true _ hsp]
          exact ⟨ihr.1, fun _ => hne⟩
        | false =>
          rw [collapseWs_cons_sp_false _ hsp]
          constructor
          · intro c hc
            rw [getLast?_cons_ne hne] at hc
            exact ihr.1 c hc
          · intro _
            simp
    · have hspf : pyIsSpace a = false := Bool.of_not_eq_true hsp
      cases rest with
      | nil =>
        rw [collapseWs_cons_nsp _ b hspf]
        constructor
        · intro c hc
          simp [collapseWs] at hc
          exact hc ▸ hspf
        · intro _
          simp
      | cons r rs =>
        have hrest : lastNotSp (r :: rs) := by
          intro c hc
          exact hlast c (by rw [List.getLast?_cons_cons]; exact hc)
        have ihr := ih false hrest
        have hne : collapseWs false (r :: rs) ≠ [] := ihr.2 (by simp)
        rw [collapseWs_cons_nsp _ b hspf]
        constructor
        · intro c hc
          rw [getLast?_cons_ne hne] at hc
          exact ihr.1 c hc
        · intro _
          simp

theorem collapseWs_collapseWs :
    ∀ (l : List Char) (b b' : Bool), (b' = true → b = true) →
      collapseWs b' (collapseWs b l) = collapseWs b l := by
  intro l
  induction l with
  | nil => intro b b' _; simp [collapseWs]
  | cons a rest ih =>
    intro b b' hbb
    by_cases hsp : pyIsSpace a
    · cases b with
      | true =>
        rw [collapseWs_cons_sp_true rest hsp]
        exact ih true b' (fun _ => rfl)
      | false =>
        have hb' : b' = false := by
          cases b' with
          | true => exact absurd (hbb rfl) (by simp)
          | false => rfl
        subst hb'
        rw [collapseWs_cons_sp_false rest hsp]
        rw [collapseWs_cons_sp_false (collapseWs true rest) (by decide)]
        rw [ih true true (fun _ => rfl)]
    · have hspf : pyIsSpace a = false := Bool.of_not_eq_true hsp
      rw [collapseWs_cons_nsp rest b hspf]
      rw [collapseWs_cons_nsp (collapseWs false rest) b' hspf]
      rw [ih false false (fun h => h)]

theorem dropWhile_eq_self_of_headNotSp {l : List Char} (h : headNotSp l) :
    l.dropWhile pyIsSpace = l := by
  cases l with
  | nil => rfl
  | cons a rest =>
    rw [List.dropWhile_cons_of_neg]
    rw [h a rfl]
    simp

theorem stripChars_eq_self {l : List Char} (hh : headNotSp l) (hl : lastNotSp l) :
    stripChars l = l := by
  unfold stripChars
  rw [dropWhile_eq_self_of_headNotSp hh]
  have hrev : headNotSp l.reverse := by
    intro c hc
    rw [List.head?_reverse] at hc
    exact hl c hc
  rw [dropWhile_eq_self_of_headNotSp hrev, List.reverse_reverse]

theorem map_eq_self_of_fixed {α : Type} {f : α → α} :
    ∀ {l : List α}, (∀ c ∈ l, f c = c) → l.map f = l := by
  intro l
  induction l with
  | nil => intro _; rfl
  | cons a rest ih =>
    intro h
    rw [List.map_cons, h a (List.mem_cons_self a rest),
      ih (fun c hc => h c (List.mem_cons_of_mem a hc))]

theorem normalizeList_fixed_chars {l : List Char} {c : Char} (h : c ∈ normalizeList l) :
    Char.toLower c = c := by
  unfold normalizeList at h
  rcases mem_collapseWs false _ h with h1 | h1
  · rw [h1]; decide
  · have h2 := mem_stripChars h1
    rcases List.mem_map.mp h2 with ⟨a, _, ha⟩
    rw [← ha]
    exact toLower_toLower a

theorem normalizeList_idem (l : List Char) :
    normalizeList (normalizeList l) = normalizeList l := by
  conv_lhs => rw [normalizeList]
  rw [map_eq_self_of_fixed (fun c hc => normalizeList_fixed_chars hc)]
  have hh : headNotSp (normalizeList l) := by
    unfold normalizeList
    exact headNotSp_collapseWs (headNotSp_stripChars _)
  have hl : lastNotSp (normalizeList l) := by
    unfold normalizeList
    exact (lastNotSp_collapseWs _ false (lastNotSp_stripChars _)).1
  rw [stripChars_eq_self hh hl]
  unfold normalizeList
  exact collapseWs_collapseWs _ false false (fun h => h)

/-- Claim C8: the normalization function (lowercase, trim, collapse interior
whitespace runs to a single space) is idempotent: for every string `x`,
`normalize(normalize(x)) == normalize(x)`. -/
theorem normalizeIdempotent (x : String) :
    normalizeText (normalizeText x) = normalizeText x := by
  unfold normalizeText
  rw [normalizeList_idem]

theorem findMatchingSectionAux_cons (tt : String) (s : Section) (rest : List Section) :
    findMatchingSectionAux tt (s :: rest) =
      if sectionMatches tt s then some s else findMatchingSectionAux tt rest := by
  simp only [findMatchingSectionAux, sectionMatches]
  by_cases hT : normalizeText (s.title?.getD "") = "" <;>
  by_cases hC : normalizeText (s.company?.getD "") = "" <;>
  by_cases hIT : strIn (normalizeText (s.title?.getD "")) tt = true <;>
  by_cases hIC : strIn (normalizeText (s.company?.getD "")) tt = true <;>
  by_cases hF : bulletFallback tt s = true <;>
  simp_all [bne]

theorem findMatchingSectionAux_eq_find (tt : String) :
    ∀ (ss : List Section), findMatchingSectionAux tt ss = ss.find? (sectionMatches tt) := by
  intro ss
  induction ss with
  | nil => rfl
  | cons s rest ih =>
    rw [List.find?_cons, findMatchingSectionAux_cons]
    cases h : sectionMatches tt s <;> simp [h, ih]

/-- Claim C2 counterexample: for the section with title "alpha" and company
"beta" and the table text "alpha", rule 1 fails only because the non-empty
normalized company "beta" does not occur in the normalized table text, and the
non-empty normalized title "alpha" does occur — yet the matcher returns no
match, because the source's title-only rule is an `elif` that is skipped
whenever the company is non-empty. -/
theorem titleOnlyRuleCounterexample :
    normalizeText "alpha" ≠ "" ∧
    normalizeText "beta" ≠ "" ∧
    strIn (normalizeText "alpha") (normalizeText "alpha") = true ∧
    strIn (normalizeText "beta") (normalizeText "alpha") = false ∧
    findMatchingSection "alpha" [⟨some "alpha", some "beta", some []⟩] = none := by
  refine ⟨?_, ?_, ?_, ?_, ?_⟩ <;> decide

/-- Claim C2 (amended): the matcher returns the first section (experiences
before projects, each list in order) satisfying the per-section decision
`sectionMatches`; under that decision the title-only rule applies only to
sections whose normalized company is empty — a section with a non-empty
company that does not occur in the table text is not matched by its title
alone (it can still match through the bullet fallback). -/
theorem matcherFirstMatchCharacterization :
    (∀ (tableText : String) (ss : List Section),
      findMatchingSection tableText ss = ss.find? (sectionMatches (normalizeText tableText))) ∧
    (∀ (tt : String) (s : Section),
      normalizeText (s.title?.getD "") ≠ "" →
      normalizeText (s.company?.getD "") = "" →
      strIn (normalizeText (s.title?.getD "")) tt = true →
      sectionMatches tt s = true) := by
  constructor
  · intro tableText ss
    unfold findMatchingSection
    exact findMatchingSectionAux_eq_find _ ss
  · intro tt s hT hC hIT
    unfold sectionMatches
    simp [bne, hT, hC, hIT]

/-- Witness for the amended C2 theorem at a concrete input. -/
theorem matcherFirstMatchCharacterization_witness :
    sectionMatches (normalizeText "acme corp engineer")
      ⟨some "Engineer", none, some []⟩ = true :=
  matcherFirstMatchCharacterization.2 (normalizeText "acme corp engineer")
    ⟨some "Engineer", none, some []⟩ (by decide) (by decide) (by decide)

/-- Claim C6: for a section that matches by neither title+company nor title
alone and has at least one bullet point, the fuzzy fallback matches exactly
when the fraction of its bullets whose normalized text occurs in the
normalized table text is at least one half (`total ≤ 2 * matches`). -/
theorem fuzzyFallbackThreshold (tt : String) (s : Section)
    (h1 : ¬(normalizeText (s.title?.getD "") ≠ "" ∧ normalizeText (s.company?.getD "") ≠ "" ∧
        strIn (normalizeText (s.title?.getD "")) (normalizeText tt) = true ∧
        strIn (normalizeText (s.company?.getD "")) (normalizeText tt) = true))
    (h2 : ¬(normalizeText (s.title?.getD "") ≠ "" ∧
        strIn (normalizeText (s.title?.getD "")) (normalizeText tt) = true))
    (h3 : s.bullet_points?.getD [] ≠ []) :
    (findMatchingSection tt [s] = some s ↔
      (s.bullet_points?.getD []).length ≤
        2 * ((s.bullet_points?.getD []).filter
          (fun b => strIn (normalizeText (b.text?.getD "")) (normalizeText tt))).length) := by
  unfold findMatchingSection
  simp only [findMatchingSectionAux]
  have hlen : 0 < (s.bullet_points?.getD []).length := List.length_pos.mpr h3
  by_cases hT : normalizeText (s.title?.getD "") = "" <;>
  by_cases hC : normalizeText (s.company?.getD "") = "" <;>
  by_cases hIT : strIn (normalizeText (s.title?.getD "")) (normalizeText tt) = true <;>
  by_cases hIC : strIn (normalizeText (s.company?.getD "")) (normalizeText tt) = true <;>
  by_cases hle : (s.bullet_points?.getD []).length ≤
      2 * ((s.bullet_points?.getD []).filter
        (fun b => strIn (normalizeText (b.text?.getD "")) (normalizeText tt))).length <;>
  simp_all [bne, bulletFallback]

/-- Witness for C6 at concrete inputs: 3 of 4 bullets matching (75%) yields a
match, 1 of 4 (25%) yields no match. -/
theorem fuzzyFallbackThreshold_witness :
    findMatchingSection "aa bb cc"
      [⟨none, none, some [⟨some "aa"⟩, ⟨some "bb"⟩, ⟨some "cc"⟩, ⟨some "dd"⟩]⟩] =
        some ⟨none, none, some [⟨some "aa"⟩, ⟨some "bb"⟩, ⟨some "cc"⟩, ⟨some "dd"⟩]⟩ ∧
    findMatchingSection "aa"
      [⟨none, none, some [⟨some "aa"⟩, ⟨some "bb"⟩, ⟨some "cc"⟩, ⟨some "dd"⟩]⟩] = none := by
  have h34 := fuzzyFallbackThreshold "aa bb cc"
    ⟨none, none, some [⟨some "aa"⟩, ⟨some "bb"⟩, ⟨some "cc"⟩, ⟨some "dd"⟩]⟩
    (by decide) (by decide) (by decide)
  have h14 := fuzzyFallbackThreshold "aa"
    ⟨none, none, some [⟨some "aa"⟩, ⟨some "bb"⟩, ⟨some "cc"⟩, ⟨some "dd"⟩]⟩
    (by decide) (by decide) (by decide)
  revert h34 h14
  decide

/-- Claim C5: the first row is excluded from the bullet-row working set
(start index 1) exactly when the raw, non-normalized extracted text of the
first row contains the section's raw title or raw company as a substring
(absent keys default to the empty string, a substring of everything);
otherwise the working set starts at index 0. -/
theorem headerRowExclusion (r0 : Xml) (s : Section) :
    (startRowIndex r0 s = 1 ∨ startRowIndex r0 s = 0) ∧
    (startRowIndex r0 s = 1 ↔
      (strIn (s.title?.getD "") (extractRowText r0) = true ∨
       strIn (s.company?.getD "") (extractRowText r0) = true)) := by
  unfold startRowIndex
  by_cases h : (strIn (s.title?.getD "") (extractRowText r0)
      || strIn (s.company?.getD "") (extractRowText r0)) = true <;>
  simp_all

/-- Claim C7: a row with no cell, or whose cell contains no paragraph, is
returned untouched by the rewrite, with no error raised. -/
theorem malformedRowNoOp (row : Xml) (t : String)
    (h : findFirstTag tcTag row = none ∨
      ∃ cell, findFirstTag tcTag row = some cell ∧ findFirstTag pTag cell = none) :
    updateRowContent row t = Except.ok row := by
  unfold updateRowContent
  rcases h with h | ⟨cell, hc, hp⟩
  · rw [h]
  · simp only [hc, hp]

/-- Witness for C7: a cell-less row is returned unchanged. -/
theorem malformedRowNoOp_witness :
    updateRowContent (Xml.node trTag none []) "x" = Except.ok (Xml.node trTag none []) :=
  malformedRowNoOp (Xml.node trTag none []) "x" (Or.inl rfl)

theorem join_cons (s : String) (l : List String) :
    String.join (s :: l) = s ++ String.join l := by
  apply String.ext
  simp [String.data_join]

/-- Claim C4 counterexample: in a row whose cell holds two paragraphs
("a" and "b"), rewriting to "new" keeps the second paragraph — two paragraphs
remain after the update, so additional paragraphs in the cell are not
discarded (and the new paragraph ends up after the retained one). -/
theorem rowUpdateCounterexample :
    updateRowContent
      (Xml.node trTag none [Xml.node tcTag none
        [Xml.node pTag none [Xml.node rTag none [Xml.node tTag (some "a") []]],
         Xml.node pTag none [Xml.node rTag none [Xml.node tTag (some "b") []]]]]) "new"
      = Except.ok
      (Xml.node trTag none [Xml.node tcTag none
        [Xml.node pTag none [Xml.node rTag none [Xml.node tTag (some "b") []]],
         Xml.node pTag none [Xml.node rTag none [Xml.node tTag (some "new") []]]]]) ∧
    (findallTag pTag (Xml.node trTag none [Xml.node tcTag none
        [Xml.node pTag none [Xml.node rTag none [Xml.node tTag (some "b") []]],
         Xml.node pTag none [Xml.node rTag none [Xml.node tTag (some "new") []]]]])).length = 2 :=
  ⟨rfl, rfl⟩

/-- Claim C4 (amended): for a row whose cell's first paragraph (in document
order) is a direct child of the cell, the update removes that paragraph,
keeps every other child of the cell in place, and appends at the end of the
cell a new paragraph made of the captured paragraph-properties subtree (if
any) followed by one new run holding the captured first-run run-properties
(if any) and a single text node with the new text.  Additional paragraphs in
the cell are retained (they are not discarded as the claim states); the runs
of the replaced first paragraph beyond the captured properties are dropped
with it. -/
theorem rowUpdatePreservesFormatting (row cell para : Xml) (cs' : List Xml) (t : String)
    (hc : findFirstTag tcTag row = some cell)
    (hp : findFirstTag pTag cell = some para)
    (hr : removeFirstP cell.children = Except.ok cs') :
    updateRowContent row t = Except.ok (replaceFirstTag tcTag
      (Xml.node cell.tag cell.text (cs' ++
        [Xml.node pTag none ((findFirstTag pPrTag para).toList ++
          [Xml.node rTag none
            (((findFirstTag rTag para).bind (fun r => findFirstTag rPrTag r)).toList ++
              [Xml.node tTag (some t) []])])]))
      row) := by
  unfold updateRowContent
  simp only [hc, hp, hr]
  cases hrun : findFirstTag rTag para <;> simp [hrun]

/-- Witness for the amended C4 theorem: a row with paragraph properties and
run properties present; both are carried into the new paragraph. -/
theorem rowUpdatePreservesFormatting_witness :
    updateRowContent
      (Xml.node trTag none [Xml.node tcTag none
        [Xml.node pTag none [Xml.node pPrTag none [],
          Xml.node rTag none [Xml.node rPrTag none [], Xml.node tTag (some "old") []]]]]) "new"
      = Except.ok (replaceFirstTag tcTag
        (Xml.node tcTag none ([] ++
          [Xml.node pTag none ((findFirstTag pPrTag
              (Xml.node pTag none [Xml.node pPrTag none [],
                Xml.node rTag none [Xml.node rPrTag none [], Xml.node tTag (some "old") []]])).toList ++
            [Xml.node rTag none
              (((findFirstTag rTag
                  (Xml.node pTag none [Xml.node pPrTag none [],
                    Xml.node rTag none [Xml.node rPrTag none [], Xml.node tTag (some "old") []]])).bind
                  (fun r => findFirstTag rPrTag r)).toList ++
                [Xml.node tTag (some "new") []])])]))
        (Xml.node trTag none [Xml.node tcTag none
          [Xml.node pTag none [Xml.node pPrTag none [],
            Xml.node rTag none [Xml.node rPrTag none [], Xml.node tTag (some "old") []]]]])) :=
  rowUpdatePreservesFormatting
    (Xml.node trTag none [Xml.node tcTag none
      [Xml.node pTag none [Xml.node pPrTag none [],
        Xml.node rTag none [Xml.node rPrTag none [], Xml.node tTag (some "old") []]]]])
    (Xml.node tcTag none
      [Xml.node pTag none [Xml.node pPrTag none [],
        Xml.node rTag none [Xml.node rPrTag none [], Xml.node tTag (some "old") []]]])
    (Xml.node pTag none [Xml.node pPrTag none [],
      Xml.node rTag none [Xml.node rPrTag none [], Xml.node tTag (some "old") []]])
    [] "new" rfl rfl rfl

theorem parseTableFoldAux :
    ∀ (rows : List Xml) (n : Nat) (acc : List (List String)),
      rows.foldl (fun (a : Nat × List (List String)) row =>
        let cells := findallTag tcTag row
        (max a.1 cells.length, a.2 ++ [cells.map extractParagraphText])) (n, acc) =
      ((rows.map (fun r => (findallTag tcTag r).length)).foldl max n,
        acc ++ rows.map (fun r => (findallTag tcTag r).map extractParagraphText)) := by
  intro rows
  induction rows with
  | nil => intro n acc; simp
  | cons r rest ih => intro n acc; simp [ih]

theorem join_skip_empty :
    ∀ (ts : List Xml),
      String.join (ts.filterMap (fun t => match t.text with
        | none => none
        | some s => if s ≠ "" then some s else none)) =
      String.join (ts.filterMap Xml.text) := by
  intro ts
  induction ts with
  | nil => rfl
  | cons t rest ih =>
    cases ht : t.text with
    | none => simp only [List.filterMap_cons, ht, ih]
    | some s =>
      by_cases hs : s = ""
      · subst hs
        simp only [List.filterMap_cons, ht, ne_eq, not_true_eq_false, if_false, ih,
          join_cons]
        apply String.ext
        simp
      · simp only [List.filterMap_cons, ht, ne_eq, hs, not_false_eq_true, if_true, ih,
          join_cons]

/-- Claim C9: for every table, the snapshot records `total_rows` as the row
count and `total_columns` as the maximum cell count over the table's rows;
every cell contributes an entry to its row's cell-text list (a cell with zero
text nodes contributes the empty string while still being counted), and each
cell's text is the separator-free concatenation of all its text nodes in
document order across the full subtree. -/
theorem snapshotColumnsAndCells (table : Xml) :
    (parseTable table).total_rows = (findallTag trTag table).length ∧
    (parseTable table).total_columns =
      ((findallTag trTag table).map (fun r => (findallTag tcTag r).length)).foldl max 0 ∧
    (parseTable table).rows =
      (findallTag trTag table).map (fun r => (findallTag tcTag r).map extractParagraphText) ∧
    (∀ cell : Xml, extractParagraphText cell =
      String.join ((findallTag tTag cell).filterMap Xml.text)) := by
  refine ⟨rfl, ?_, ?_, ?_⟩
  · unfold parseTable
    simp only [parseTableFoldAux]
  · unfold parseTable
    simp only [parseTableFoldAux, List.nil_append]
  · intro cell
    unfold extractParagraphText
    exact join_skip_empty _

theorem exceptMap_id {α : Type} (f : α → Except String α) :
    ∀ (l : List α), (∀ a ∈ l, f a = .ok a) → exceptMap f l = .ok l := by
  intro l
  induction l with
  | nil => intro _; rfl
  | cons a rest ih =>
    intro h
    simp only [exceptMap, h a (List.mem_cons_self a rest),
      ih (fun b hb => h b (List.mem_cons_of_mem a hb))]

/-- Claim C1 counterexample: no `SchemaValidationError` exists in the code.
With a schema missing both `experiences` and `projects` the operation
completes without raising (returning the table unchanged instead of aborting
with a fatal error), and with a schema whose matching section is missing
`bullet_points` the operation also completes without raising while mutating
the table (its only bullet row is deleted), contradicting both halves of the
claim. -/
theorem schemaValidationCounterexample :
    modifyDocx ⟨none, none⟩
      [Xml.node "w:tbl" none [Xml.node trTag none [Xml.node tcTag none
        [Xml.node pTag none [Xml.node rTag none [Xml.node tTag (some "b1") []]]]]]] =
      Except.ok
      [Xml.node "w:tbl" none [Xml.node trTag none [Xml.node tcTag none
        [Xml.node pTag none [Xml.node rTag none [Xml.node tTag (some "b1") []]]]]]] ∧
    modifyDocx ⟨some [⟨some "Software Engineer", some "Tech Corp", none⟩], none⟩
      [Xml.node "w:tbl" none
        [Xml.node trTag none [Xml.node tcTag none
          [Xml.node pTag none [Xml.node rTag none [Xml.node tTag (some "b1") []]]]],
         Xml.node trTag none [Xml.node tcTag none
          [Xml.node pTag none [Xml.node rTag none
            [Xml.node tTag (some "software engineer tech corp") []]]]]]] =
      Except.ok [Xml.node "w:tbl" none []] ∧
    Xml.node "w:tbl" none [] ≠
      Xml.node "w:tbl" none
        [Xml.node trTag none [Xml.node tcTag none
          [Xml.node pTag none [Xml.node rTag none [Xml.node tTag (some "b1") []]]]],
         Xml.node trTag none [Xml.node tcTag none
          [Xml.node pTag none [Xml.node rTag none
            [Xml.node tTag (some "software engineer tech corp") []]]]]] := by
  refine ⟨rfl, rfl, ?_⟩
  intro h
  have hch := congrArg Xml.children h
  simp [Xml.children] at hch

/-- Claim C1 (amended): the code performs no schema validation and defines no
SchemaValidationError.  When the schema lacks both `experiences` and
`projects`, each key defaults to an empty list, the operation raises nothing
and returns every table unmodified.  A section missing `bullet_points` is
likewise tolerated through an empty default — when such a section matches a
table, the table's bullet rows are deleted, so tables are mutated rather than
protected by a prior fatal error — and a bullet missing `text` raises a
`KeyError` during the rewrite of a matched table, not before tables are
touched. -/
theorem missingKeysNoValidation (tables : List Xml) :
    modifyDocx ⟨none, none⟩ tables = Except.ok tables := by
  unfold modifyDocx modifySections
  apply exceptMap_id
  intro table _
  rfl

/-- Claim C10: the modification operation is not total over schemas meeting
the stated interface requirements.  The schema below supplies `experiences`
and `projects`, its section has `bullet_points`, and its bullet has `text`
(the one-space string, which normalizes to the empty string, so the fuzzy
fallback matches every table); on a document containing a zero-row table the
rewrite's `rows[0]` access is out of bounds and the operation fails with an
IndexError instead of leaving the table unmodified. -/
theorem emptyTableRewriteFails :
    modifyDocx ⟨some [⟨none, none, some [⟨some " "⟩]⟩], some []⟩
      [Xml.node "w:tbl" none []] =
      Except.error "IndexError: list index out of range" := rfl

theorem descList_eq (x : Xml) : descList x = descListL x.children := by
  cases x
  rfl

def xmlRecAll {P : Xml → Prop}
    (h : ∀ t tx cs, (∀ c ∈ cs, P c) → P (Xml.node t tx cs)) : ∀ x, P x
  | .node t tx cs => h t tx cs (fun c hc => xmlRecAll h c)
termination_by x => sizeOf x
decreasing_by
  have hlt := List.sizeOf_lt_of_mem hc
  simp only [Xml.node.sizeOf_spec]
  omega

theorem mem_descListL_iff :
    ∀ (cs : List Xml) (y : Xml), y ∈ descListL cs ↔ ∃ c ∈ cs, y = c ∨ y ∈ descList c := by
  intro cs y
  induction cs with
  | nil => simp [descListL]
  | cons c rest ih =>
    rw [descListL]
    simp only [List.mem_cons, List.mem_append, ih]
    constructor
    · rintro (h | h | ⟨c', hc', h⟩)
      · exact ⟨c, Or.inl rfl, Or.inl h⟩
      · exact ⟨c, Or.inl rfl, Or.inr h⟩
      · exact ⟨c', Or.inr hc', h⟩
    · rintro ⟨c', hc', h⟩
      rcases hc' with rfl | hc'
      · rcases h with h | h
        · exact Or.inl h
        · exact Or.inr (Or.inl h)
      · exact Or.inr (Or.inr ⟨c', hc', h⟩)

theorem descList_trans :
    ∀ (x : Xml), ∀ y ∈ descList x, ∀ z ∈ descList y, z ∈ descList x := by
  apply xmlRecAll
  intro t tx cs ih y hy z hz
  rw [show descList (Xml.node t tx cs) = descListL cs from rfl] at hy ⊢
  rcases (mem_descListL_iff cs y).mp hy with ⟨c, hc, hyc | hyc⟩
  · subst hyc
    exact (mem_descListL_iff cs z).mpr ⟨y, hc, Or.inr hz⟩
  · exact (mem_descListL_iff cs z).mpr ⟨c, hc, Or.inr (ih c hc y hyc z hz)⟩

theorem head?_mem_list {α : Type} {l : List α} {a : α} (h : l.head? = some a) : a ∈ l := by
  cases l with
  | nil => simp at h
  | cons b rest =>
    simp only [List.head?_cons, Option.some.injEq] at h
    rw [← h]
    exact List.mem_cons_self b rest

theorem findFirstTag_mem {tag : String} {x c : Xml} (h : findFirstTag tag x = some c) :
    c ∈ descList x ∧ c.tag = tag := by
  unfold findFirstTag findallTag at h
  have hmem := head?_mem_list h
  have hf := List.mem_filter.mp hmem
  exact ⟨hf.1, by simpa using hf.2⟩

theorem replaceFirst_tagEq :
    ∀ (x : Xml) (tag : String) (v x' : Xml), replaceFirst tag v x = some x' →
      x'.tag = x.tag ∧ x'.text = x.text := by
  intro x tag v x' h
  cases x with
  | node t tx cs =>
    unfold replaceFirst at h
    cases hl : replaceFirstL tag v cs with
    | none => rw [hl] at h; exact absurd h (by simp)
    | some cs' =>
      rw [hl] at h
      simp only [Option.some.injEq] at h
      rw [← h]
      exact ⟨rfl, rfl⟩

theorem replaceFirstTag_tagEq (tag : String) (v x : Xml) :
    (replaceFirstTag tag v x).tag = x.tag := by
  unfold replaceFirstTag
  cases h : replaceFirst tag v x with
  | none => rfl
  | some x' => exact (replaceFirst_tagEq x tag v x' h).1

theorem removeFirstP_mem :
    ∀ (cs cs' : List Xml), removeFirstP cs = Except.ok cs' → ∀ y ∈ cs', y ∈ cs := by
  intro cs
  induction cs with
  | nil => intro cs' h; exact absurd h (by simp [removeFirstP])
  | cons c rest ih =>
    intro cs' h y hy
    unfold removeFirstP at h
    by_cases hc : c.tag == pTag
    · rw [if_pos hc] at h
      simp only [Except.ok.injEq] at h
      rw [← h] at hy
      exact List.mem_cons_of_mem c hy
    · rw [if_neg hc] at h
      by_cases hd : hasDescTag pTag c
      · rw [if_pos hd] at h; exact absurd h (by simp)
      · rw [if_neg hd] at h
        cases hrest : removeFirstP rest with
        | error e => rw [hrest] at h; exact absurd h (by simp)
        | ok rest' =>
          rw [hrest] at h
          simp only [Except.ok.injEq] at h
          rw [← h] at hy
          rcases List.mem_cons.mp hy with rfl | hy'
          · exact List.mem_cons_self y rest
          · exact List.mem_cons_of_mem c (ih rest' hrest y hy')

theorem descListL_append :
    ∀ (a b : List Xml), descListL (a ++ b) = descListL a ++ descListL b := by
  intro a b
  induction a with
  | nil => rfl
  | cons c rest ih =>
    rw [List.cons_append, descListL, descListL, ih]
    simp [List.append_assoc]

theorem noDesc_of_mem {bad : String} {r x : Xml}
    (h : ∀ y ∈ descList r, y.tag ≠ bad) (hm : x ∈ descList r) :
    x.tag ≠ bad ∧ ∀ y ∈ descList x, y.tag ≠ bad :=
  ⟨h x hm, fun y hy => h y (descList_trans r x hm y hy)⟩

theorem replaceFirstL_noDesc {tag bad : String} {v : Xml} :
    ∀ (cs : List Xml) (cs' : List Xml),
      v.tag ≠ bad → (∀ y ∈ descList v, y.tag ≠ bad) →
      (∀ y ∈ descListL cs, y.tag ≠ bad) →
      (∀ c ∈ cs, ∀ c', (∀ y ∈ descList c, y.tag ≠ bad) →
        replaceFirst tag v c = some c' → ∀ y ∈ descList c', y.tag ≠ bad) →
      replaceFirstL tag v cs = some cs' →
      ∀ y ∈ descListL cs', y.tag ≠ bad := by
  intro cs
  induction cs with
  | nil =>
    intro cs' _ _ _ _ h
    exact absurd h (by simp [replaceFirstL])
  | cons c rest ih =>
    intro cs' hv1 hv2 hcs hpt h y hy
    have hcshead : c.tag ≠ bad := hcs c (by rw [descListL]; exact List.mem_cons_self c _)
    have hcdesc : ∀ z ∈ descList c, z.tag ≠ bad := by
      intro z hz
      apply hcs
      rw [descListL]
      exact List.mem_cons_of_mem c (List.mem_append.mpr (Or.inl hz))
    have hrest : ∀ z ∈ descListL rest, z.tag ≠ bad := by
      intro z hz
      apply hcs
      rw [descListL]
      exact List.mem_cons_of_mem c (List.mem_append.mpr (Or.inr hz))
    unfold replaceFirstL at h
    by_cases hct : c.tag == tag
    · rw [if_pos hct] at h
      simp only [Option.some.injEq] at h
      rw [← h] at hy
      rw [descListL] at hy
      rcases List.mem_cons.mp hy with rfl | hy'
      · exact hv1
      · rcases List.mem_append.mp hy' with hy2 | hy2
        · exact hv2 y hy2
        · exact hrest y hy2
    · rw [if_neg hct] at h
      cases hrc : replaceFirst tag v c with
      | some c' =>
        rw [hrc] at h
        simp only [Option.some.injEq] at h
        rw [← h] at hy
        rw [descListL] at hy
        rcases List.mem_cons.mp hy with rfl | hy'
        · rw [(replaceFirst_tagEq c tag v y hrc).1]
          exact hcshead
        · rcases List.mem_append.mp hy' with hy2 | hy2
          · exact hpt c (List.mem_cons_self c rest) c' hcdesc hrc y hy2
          · exact hrest y hy2
      | none =>
        rw [hrc] at h
        cases hrl : replaceFirstL tag v rest with
        | none => rw [hrl] at h; exact absurd h (by simp)
        | some rest' =>
          rw [hrl] at h
          simp only [Option.some.injEq] at h
          rw [← h] at hy
          rw [descListL] at hy
          rcases List.mem_cons.mp hy with rfl | hy'
          · exact hcshead
          · rcases List.mem_append.mp hy' with hy2 | hy2
            · exact hcdesc y hy2
            · exact ih rest' hv1 hv2 hrest
                (fun cc hcc => hpt cc (List.mem_cons_of_mem c hcc)) hrl y hy2

theorem replaceFirst_noDesc {tag bad : String} {v : Xml} :
    ∀ (x : Xml) (x' : Xml),
      v.tag ≠ bad → (∀ y ∈ descList v, y.tag ≠ bad) →
      (∀ y ∈ descList x, y.tag ≠ bad) →
      replaceFirst tag v x = some x' →
      ∀ y ∈ descList x', y.tag ≠ bad := by
  apply xmlRecAll
    (P := fun x => ∀ (x' : Xml),
      v.tag ≠ bad → (∀ y ∈ descList v, y.tag ≠ bad) →
      (∀ y ∈ descList x, y.tag ≠ bad) →
      replaceFirst tag v x = some x' →
      ∀ y ∈ descList x', y.tag ≠ bad)
  intro t tx cs ihp x' hv1 hv2 hx h
  unfold replaceFirst at h
  cases hl : replaceFirstL tag v cs with
  | none => rw [hl] at h; exact absurd h (by simp)
  | some cs' =>
    rw [hl] at h
    simp only [Option.some.injEq] at h
    rw [← h]
    rw [show descList (Xml.node t tx cs') = descListL cs' from rfl]
    exact replaceFirstL_noDesc cs cs' hv1 hv2 hx
      (fun c hc c' hcd hrc => ihp c hc c' hv1 hv2 hcd hrc) hl

theorem replaceFirstTag_noDesc {tag bad : String} {v x : Xml}
    (hv1 : v.tag ≠ bad) (hv2 : ∀ y ∈ descList v, y.tag ≠ bad)
    (hx : ∀ y ∈ descList x, y.tag ≠ bad) :
    ∀ y ∈ descList (replaceFirstTag tag v x), y.tag ≠ bad := by
  unfold replaceFirstTag
  cases h : replaceFirst tag v x with
  | none => exact hx
  | some x' => exact replaceFirst_noDesc x x' hv1 hv2 hx h

theorem mem_optToList {α : Type} {o : Option α} {a : α} (h : a ∈ o.toList) : o = some a := by
  cases o with
  | none => simp [Option.toList] at h
  | some b =>
    simp only [Option.toList, List.mem_singleton] at h
    rw [h]

theorem newParagraph_noDesc {bad : String} (ppl rpl : List Xml) (t : String)
    (hppl : ∀ z ∈ ppl, z.tag ≠ bad ∧ ∀ y ∈ descList z, y.tag ≠ bad)
    (hrpl : ∀ z ∈ rpl, z.tag ≠ bad ∧ ∀ y ∈ descList z, y.tag ≠ bad)
    (_hbad1 : pTag ≠ bad) (hbad2 : rTag ≠ bad) (hbad3 : tTag ≠ bad) :
    ∀ y ∈ descList (Xml.node pTag none
      (ppl ++ [Xml.node rTag none (rpl ++ [Xml.node tTag (some t) []])])), y.tag ≠ bad := by
  intro y hy
  rw [show descList (Xml.node pTag none
      (ppl ++ [Xml.node rTag none (rpl ++ [Xml.node tTag (some t) []])])) =
    descListL (ppl ++ [Xml.node rTag none (rpl ++ [Xml.node tTag (some t) []])]) from rfl,
    descListL_append] at hy
  rcases List.mem_append.mp hy with hy1 | hy1
  · rcases (mem_descListL_iff ppl y).mp hy1 with ⟨z, hz, hyz | hyz⟩
    · exact hyz ▸ (hppl z hz).1
    · exact (hppl z hz).2 y hyz
  · rw [descListL] at hy1
    rcases List.mem_cons.mp hy1 with rfl | hy2
    · exact hbad2
    · rw [show descListL [] = [] from rfl, List.append_nil] at hy2
      rw [show descList (Xml.node rTag none (rpl ++ [Xml.node tTag (some t) []])) =
        descListL (rpl ++ [Xml.node tTag (some t) []]) from rfl, descListL_append] at hy2
      rcases List.mem_append.mp hy2 with hy3 | hy3
      · rcases (mem_descListL_iff rpl y).mp hy3 with ⟨z, hz, hyz | hyz⟩
        · exact hyz ▸ (hrpl z hz).1
        · exact (hrpl z hz).2 y hyz
      · rw [descListL] at hy3
        rcases List.mem_cons.mp hy3 with rfl | hy4
        · exact hbad3
        · rw [show descList (Xml.node tTag (some t) []) = [] from rfl] at hy4
          simp [descListL] at hy4

theorem updateRowContent_noDesc {r r' : Xml} {t : String}
    (hfree : ∀ y ∈ descList r, y.tag ≠ trTag)
    (h : updateRowContent r t = Except.ok r') :
    r'.tag = r.tag ∧ ∀ y ∈ descList r', y.tag ≠ trTag := by
  unfold updateRowContent at h
  cases hc : findFirstTag tcTag r with
  | none =>
    simp only [hc, Except.ok.injEq] at h
    rw [← h]
    exact ⟨rfl, hfree⟩
  | some cell =>
    cases hp : findFirstTag pTag cell with
    | none =>
      simp only [hc, hp, Except.ok.injEq] at h
      rw [← h]
      exact ⟨rfl, hfree⟩
    | some para =>
      simp only [hc, hp] at h
      cases hrm : removeFirstP cell.children with
      | error e =>
        simp only [hrm] at h
        exact absurd h (by simp)
      | ok cs' =>
        simp only [hrm, Except.ok.injEq] at h
        rw [← h]
        have hcellmem := findFirstTag_mem hc
        have hparamem := findFirstTag_mem hp
        have hcellfree := noDesc_of_mem hfree hcellmem.1
        have hparafree := noDesc_of_mem hcellfree.2 hparamem.1
        have hparaInR : para ∈ descList r := descList_trans r cell hcellmem.1 para hparamem.1
        refine ⟨replaceFirstTag_tagEq _ _ _, ?_⟩
        apply replaceFirstTag_noDesc
        · rw [show (Xml.node cell.tag cell.text _).tag = cell.tag from rfl, hcellmem.2]
          decide
        · intro y hy
          rw [show descList (Xml.node cell.tag cell.text _) = descListL _ from rfl,
            descListL_append] at hy
          rcases List.mem_append.mp hy with hy1 | hy1
          · rcases (mem_descListL_iff cs' y).mp hy1 with ⟨cc, hcc, hyc | hyc⟩
            · have hccChild : cc ∈ cell.children := removeFirstP_mem cell.children cs' hrm cc hcc
              have hccDesc : cc ∈ descList cell := by
                rw [descList_eq]
                exact (mem_descListL_iff cell.children cc).mpr ⟨cc, hccChild, Or.inl rfl⟩
              exact hyc ▸ (noDesc_of_mem hcellfree.2 hccDesc).1
            · have hccChild : cc ∈ cell.children := removeFirstP_mem cell.children cs' hrm cc hcc
              have hccDesc : cc ∈ descList cell := by
                rw [descList_eq]
                exact (mem_descListL_iff cell.children cc).mpr ⟨cc, hccChild, Or.inl rfl⟩
              exact (noDesc_of_mem hcellfree.2 hccDesc).2 y hyc
          · rw [descListL, show descListL [] = [] from rfl, List.append_nil] at hy1
            rcases List.mem_cons.mp hy1 with rfl | hy2
            · exact (show pTag ≠ trTag by decide)
            · refine newParagraph_noDesc _ _ t ?_ ?_ (by decide) (by decide) (by decide) y hy2
              · intro z hz
                have hz1 := mem_optToList hz
                have hzm := findFirstTag_mem hz1
                exact noDesc_of_mem hparafree.2 hzm.1
              · intro z hz
                have hz1 := mem_optToList hz
                cases hrun : findFirstTag rTag para with
                | none => rw [hrun] at hz1; exact absurd hz1 (by simp)
                | some run =>
                  rw [hrun] at hz1
                  have hrunmem := findFirstTag_mem hrun
                  have hrunfree := noDesc_of_mem hparafree.2 hrunmem.1
                  have hzm := findFirstTag_mem hz1
                  exact noDesc_of_mem hrunfree.2 hzm.1
        · exact hfree

theorem exceptMap_ok_length {α β : Type} (f : α → Except String β) :
    ∀ (l : List α) (l' : List β), exceptMap f l = Except.ok l' → l'.length = l.length := by
  intro l
  induction l with
  | nil =>
    intro l' h
    simp only [exceptMap, Except.ok.injEq] at h
    rw [← h]
    rfl
  | cons a rest ih =>
    intro l' h
    unfold exceptMap at h
    cases hf : f a with
    | error e => rw [hf] at h; exact absurd h (by simp)
    | ok b =>
      rw [hf] at h
      cases hm : exceptMap f rest with
      | error e => rw [hm] at h; exact absurd h (by simp)
      | ok bs =>
        rw [hm] at h
        simp only [Except.ok.injEq] at h
        rw [← h]
        simp [ih bs hm]

theorem exceptMap_ok_mem {α β : Type} (f : α → Except String β) :
    ∀ (l : List α) (l' : List β), exceptMap f l = Except.ok l' →
      ∀ y ∈ l', ∃ x ∈ l, f x = Except.ok y := by
  intro l
  induction l with
  | nil =>
    intro l' h y hy
    simp only [exceptMap, Except.ok.injEq] at h
    rw [← h] at hy
    simp at hy
  | cons a rest ih =>
    intro l' h y hy
    unfold exceptMap at h
    cases hf : f a with
    | error e => rw [hf] at h; exact absurd h (by simp)
    | ok b =>
      rw [hf] at h
      cases hm : exceptMap f rest with
      | error e => rw [hm] at h; exact absurd h (by simp)
      | ok bs =>
        rw [hm] at h
        simp only [Except.ok.injEq] at h
        rw [← h] at hy
        rcases List.mem_cons.mp hy with rfl | hy'
        · exact ⟨a, List.mem_cons_self a rest, hf⟩
        · rcases ih bs hm y hy' with ⟨x, hx, hfx⟩
          exact ⟨x, List.mem_cons_of_mem a hx, hfx⟩

theorem getLast?_mem_list {α : Type} {l : List α} {a : α} (h : l.getLast? = some a) :
    a ∈ l := by
  have h2 : l.reverse.head? = some a := by rw [List.head?_reverse]; exact h
  exact List.mem_reverse.mp (head?_mem_list h2)

theorem filter_descListL_noInner :
    ∀ (cs : List Xml), (∀ c ∈ cs, ∀ y ∈ descList c, y.tag ≠ trTag) →
      (descListL cs).filter (fun c => c.tag == trTag) =
        cs.filter (fun c => c.tag == trTag) := by
  intro cs
  induction cs with
  | nil => intro _; rfl
  | cons c rest ih =>
    intro h
    rw [descListL, List.filter_cons, List.filter_append]
    have hdesc : (descList c).filter (fun c => c.tag == trTag) = [] := by
      rw [List.filter_eq_nil_iff]
      intro y hy
      simp only [beq_iff_eq]
      exact h c (List.mem_cons_self c rest) y hy
    rw [hdesc, List.nil_append, ih (fun c' hc' => h c' (List.mem_cons_of_mem c hc')),
      List.filter_cons]

theorem findallTag_eq_children_filter {table : Xml}
    (hg : ∀ c ∈ table.children, ∀ y ∈ descList c, y.tag ≠ trTag) :
    findallTag trTag table = table.children.filter (fun c => c.tag == trTag) := by
  unfold findallTag
  rw [descList_eq]
  exact filter_descListL_noInner table.children hg

theorem rebuildRows_mem :
    ∀ (cs : List Xml) (skip : Nat) (repl : List Xml) (y : Xml),
      y ∈ rebuildRows cs skip repl → y ∈ cs ∨ y ∈ repl := by
  intro cs
  induction cs with
  | nil => intro skip repl y h; simp [rebuildRows] at h
  | cons c rest ih =>
    intro skip repl y h
    unfold rebuildRows at h
    by_cases hct : c.tag == trTag
    · rw [if_pos hct] at h
      cases skip with
      | succ k =>
        rcases List.mem_cons.mp h with rfl | h'
        · exact Or.inl (List.mem_cons_self y rest)
        · rcases ih k repl y h' with h2 | h2
          · exact Or.inl (List.mem_cons_of_mem c h2)
          · exact Or.inr h2
      | zero =>
        cases repl with
        | cons r rs =>
          rcases List.mem_cons.mp h with rfl | h'
          · exact Or.inr (List.mem_cons_self y rs)
          · rcases ih 0 rs y h' with h2 | h2
            · exact Or.inl (List.mem_cons_of_mem c h2)
            · exact Or.inr (List.mem_cons_of_mem r h2)
        | nil =>
          rcases ih 0 [] y h with h2 | h2
          · exact Or.inl (List.mem_cons_of_mem c h2)
          · exact Or.inr h2
    · rw [if_neg hct] at h
      rcases List.mem_cons.mp h with rfl | h'
      · exact Or.inl (List.mem_cons_self y rest)
      · rcases ih skip repl y h' with h2 | h2
        · exact Or.inl (List.mem_cons_of_mem c h2)
        · exact Or.inr h2

theorem filter_cons_tr_pos {c : Xml} (rest : List Xml) (hct : (c.tag == trTag) = true) :
    (c :: rest).filter (fun x => x.tag == trTag) =
      c :: rest.filter (fun x => x.tag == trTag) := by
  rw [List.filter_cons]
  simp [hct]

theorem filter_cons_tr_neg {c : Xml} (rest : List Xml) (hct : (c.tag == trTag) = false) :
    (c :: rest).filter (fun x => x.tag == trTag) =
      rest.filter (fun x => x.tag == trTag) := by
  rw [List.filter_cons]
  simp [hct]

theorem rebuildRows_filter :
    ∀ (cs : List Xml) (skip : Nat) (repl : List Xml),
      repl.length + skip ≤ (cs.filter (fun c => c.tag == trTag)).length →
      (∀ r ∈ repl, r.tag = trTag) →
      (rebuildRows cs skip repl).filter (fun c => c.tag == trTag) =
        (cs.filter (fun c => c.tag == trTag)).take skip ++ repl := by
  intro cs
  induction cs with
  | nil =>
    intro skip repl hlen _
    simp only [List.filter_nil, List.length_nil, Nat.le_zero, Nat.add_eq_zero] at hlen
    have hre : repl = [] := List.eq_nil_of_length_eq_zero hlen.1
    rw [hre]
    simp [rebuildRows]
  | cons c rest ih =>
    intro skip repl hlen hrepl
    unfold rebuildRows
    by_cases hct : (c.tag == trTag) = true
    · rw [if_pos hct]
      rw [filter_cons_tr_pos rest hct, List.length_cons] at hlen
      cases skip with
      | succ k =>
        rw [filter_cons_tr_pos _ hct, filter_cons_tr_pos rest hct, List.take_succ_cons,
          List.cons_append]
        rw [ih k repl (by omega) hrepl]
      | zero =>
        cases repl with
        | cons r rs =>
          have hr : (r.tag == trTag) = true := by
            simp only [beq_iff_eq]
            exact hrepl r (List.mem_cons_self r rs)
          rw [filter_cons_tr_pos _ hr, filter_cons_tr_pos rest hct, List.take_zero,
            List.nil_append]
          rw [ih 0 rs (by rw [List.length_cons] at hlen; omega)
            (fun x hx => hrepl x (List.mem_cons_of_mem r hx)), List.take_zero,
            List.nil_append]
        | nil =>
          rw [ih 0 [] (by simp) (by intro x hx; simp at hx)]
          rw [filter_cons_tr_pos rest hct, List.take_zero, List.nil_append, List.take_zero,
            List.nil_append]
    · have hctf : (c.tag == trTag) = false := Bool.of_not_eq_true hct
      rw [if_neg hct]
      rw [filter_cons_tr_neg rest hctf] at hlen
      rw [filter_cons_tr_neg _ hctf, filter_cons_tr_neg rest hctf]
      exact ih skip repl hlen hrepl

theorem bind_ok_inv {α β : Type} {x : Except String α} {f : α → Except String β} {b : β}
    (h : x.bind f = Except.ok b) : ∃ a, x = Except.ok a ∧ f a = Except.ok b := by
  cases x with
  | error e => simp [Except.bind] at h
  | ok a => exact ⟨a, rfl, by simpa [Except.bind] using h⟩

theorem startRowIndex_le_one (r0 : Xml) (s : Section) : startRowIndex r0 s ≤ 1 := by
  unfold startRowIndex
  split
  · exact Nat.le_refl 1
  · exact Nat.zero_le 1

/-- Claim C3: whenever `_update_table_content` completes on a table and a
section, the resulting table's rows are exactly the kept header prefix, the
first `len(bullet_points)` bullet rows rewritten in order to the bullets'
texts (`rewriteExisting`), and one appended clone per excess bullet
(`synthesizeRows`); bullet rows beyond `len(bullet_points)` are gone, the
bullet-row count equals `len(bullet_points)`, and the total row count is the
header offset plus `len(bullet_points)` (so 5 existing bullet rows with 2
bullets leave exactly 2, and 3 existing bullet rows with 5 bullets leave
exactly 5). -/
theorem rewriteRowReconciliation (table : Xml) (sec : Section) (table' : Xml)
    (h : updateTableContent table sec = Except.ok table') :
    ∃ r0 rest updated appended,
      findallTag trTag table = r0 :: rest ∧
      rewriteExisting ((r0 :: rest).drop (startRowIndex r0 sec))
        (sec.bullet_points?.getD []) = Except.ok updated ∧
      synthesizeRows ((r0 :: rest).drop (startRowIndex r0 sec)).length updated
        (sec.bullet_points?.getD []) = Except.ok appended ∧
      findallTag trTag table' =
        (r0 :: rest).take (startRowIndex r0 sec) ++ updated ++ appended ∧
      updated.length = min (sec.bullet_points?.getD []).length
        ((r0 :: rest).drop (startRowIndex r0 sec)).length ∧
      appended.length = (sec.bullet_points?.getD []).length -
        ((r0 :: rest).drop (startRowIndex r0 sec)).length ∧
      (findallTag trTag table').length =
        startRowIndex r0 sec + (sec.bullet_points?.getD []).length := by
  unfold updateTableContent at h
  by_cases hg : (!(table.children.all fun c => (findallTag trTag c).isEmpty)) = true
  · rw [if_pos hg] at h
    exact absurd h (by simp)
  · rw [if_neg hg] at h
    have hallb : (table.children.all fun c => (findallTag trTag c).isEmpty) = true := by
      cases hb : (table.children.all fun c => (findallTag trTag c).isEmpty) with
      | true => rfl
      | false => exact absurd (by rw [hb]; rfl) hg
    have hfree : ∀ c ∈ table.children, ∀ y ∈ descList c, y.tag ≠ trTag := by
      intro c hc y hy
      have hce : (findallTag trTag c).isEmpty = true := List.all_eq_true.mp hallb c hc
      have hnil : findallTag trTag c = [] := by
        cases hfa : findallTag trTag c with
        | nil => rfl
        | cons a as => rw [hfa] at hce; simp at hce
      unfold findallTag at hnil
      have := List.filter_eq_nil_iff.mp hnil y hy
      simpa using this
    have hfilter : findallTag trTag table =
        table.children.filter (fun c => c.tag == trTag) :=
      findallTag_eq_children_filter hfree
    cases hrows : findallTag trTag table with
    | nil =>
      simp only [hrows] at h
      exact absurd h (by simp)
    | cons r0 rest =>
      simp only [hrows] at h
      cases hre : rewriteExisting ((r0 :: rest).drop (startRowIndex r0 sec))
          (sec.bullet_points?.getD []) with
      | error e =>
        simp only [hre] at h
        exact absurd h (by simp)
      | ok updated =>
        simp only [hre] at h
        cases hsy : synthesizeRows ((r0 :: rest).drop (startRowIndex r0 sec)).length updated
            (sec.bullet_points?.getD []) with
        | error e =>
          simp only [hsy] at h
          exact absurd h (by simp)
        | ok appended =>
          simp only [hsy, Except.ok.injEq] at h
          -- facts about the original rows
          have hRows : ∀ r ∈ (r0 :: rest),
              r.tag = trTag ∧ ∀ y ∈ descList r, y.tag ≠ trTag := by
            intro r hr
            rw [← hrows, hfilter] at hr
            have hm := List.mem_filter.mp hr
            exact ⟨by simpa using hm.2, fun y hy => hfree r hm.1 y hy⟩
          -- facts about the updated rows
          have hUpd : ∀ u ∈ updated,
              u.tag = trTag ∧ ∀ y ∈ descList u, y.tag ≠ trTag := by
            intro u hu
            rcases exceptMap_ok_mem _ _ _ hre u hu with ⟨rb, hrb, hok⟩
            rcases bind_ok_inv hok with ⟨t', _, hupd⟩
            have hr1 : rb.1 ∈ (r0 :: rest) := by
              have hzip := List.of_mem_zip hrb
              have htake := hzip.1
              exact List.drop_subset _ _ (List.take_subset _ _ htake)
            have hfacts := hRows rb.1 hr1
            have hnd := updateRowContent_noDesc hfacts.2 hupd
            exact ⟨hnd.1.trans hfacts.1, hnd.2⟩
          -- facts about the appended rows, and their length
          have hApp : (∀ u ∈ appended,
              u.tag = trTag ∧ ∀ y ∈ descList u, y.tag ≠ trTag) ∧
              appended.length = (sec.bullet_points?.getD []).length -
                ((r0 :: rest).drop (startRowIndex r0 sec)).length := by
            unfold synthesizeRows at hsy
            by_cases hlt : ((r0 :: rest).drop (startRowIndex r0 sec)).length <
                (sec.bullet_points?.getD []).length
            · rw [if_pos hlt] at hsy
              cases hgl : updated.getLast? with
              | none => rw [hgl] at hsy; exact absurd hsy (by simp)
              | some tmpl =>
                rw [hgl] at hsy
                have htmpl := hUpd tmpl (getLast?_mem_list hgl)
                constructor
                · intro u hu
                  rcases exceptMap_ok_mem _ _ _ hsy u hu with ⟨b, _, hok⟩
                  rcases bind_ok_inv hok with ⟨t', _, hupd⟩
                  have hnd := updateRowContent_noDesc htmpl.2 hupd
                  exact ⟨hnd.1.trans htmpl.1, hnd.2⟩
                · rw [exceptMap_ok_length _ _ _ hsy, List.length_drop]
            · rw [if_neg hlt] at hsy
              simp only [Except.ok.injEq] at hsy
              rw [← hsy]
              refine ⟨by intro u hu; simp at hu, ?_⟩
              simp only [List.length_nil]
              omega
          -- lengths of the updated list
          have hUpdLen : updated.length = min (sec.bullet_points?.getD []).length
              ((r0 :: rest).drop (startRowIndex r0 sec)).length := by
            rw [exceptMap_ok_length _ _ _ hre, List.length_zip, List.length_take]
            omega
          -- the new table's children
          have hchildren : table'.children =
              rebuildRows table.children (startRowIndex r0 sec) updated ++ appended := by
            rw [← h]
            rfl
          have hfree' : ∀ c ∈ table'.children, ∀ y ∈ descList c, y.tag ≠ trTag := by
            rw [hchildren]
            intro c hc
            rcases List.mem_append.mp hc with hc1 | hc1
            · rcases rebuildRows_mem _ _ _ _ hc1 with hc2 | hc2
              · exact hfree c hc2
              · exact (hUpd c hc2).2
            · exact (hApp.1 c hc1).2
          have hskip : startRowIndex r0 sec ≤ 1 := startRowIndex_le_one r0 sec
          have hlenokay : updated.length + startRowIndex r0 sec ≤
              ((table.children.filter (fun c => c.tag == trTag))).length := by
            rw [← hfilter, hrows]
            rw [hUpdLen]
            simp only [List.length_cons, List.length_drop] at *
            omega
          have hfilter' : findallTag trTag table' =
              (r0 :: rest).take (startRowIndex r0 sec) ++ updated ++ appended := by
            rw [findallTag_eq_children_filter hfree', hchildren, List.filter_append]
            rw [rebuildRows_filter table.children (startRowIndex r0 sec) updated hlenokay
              (fun r hr => (hUpd r hr).1)]
            rw [← hfilter, hrows]
            rw [List.filter_eq_self.mpr (fun a ha => by
              simp only [beq_iff_eq]
              exact (hApp.1 a ha).1)]
          refine ⟨r0, rest, updated, appended, rfl, hre, hsy, hfilter', hUpdLen, hApp.2, ?_⟩
          rw [hfilter']
          simp only [List.length_append, List.length_take, List.length_cons,
            List.length_drop] at *
          omega

/-- Witness for C3: a table with a header row and five bullet rows, rewritten
against a section with two bullets, ends with exactly 1 + 2 rows. -/
theorem rewriteRowReconciliation_witness :
    updateTableContent
      (Xml.node "w:tbl" none
        [Xml.node trTag none [Xml.node tcTag none [Xml.node pTag none
          [Xml.node rTag none [Xml.node tTag (some "Software Engineer") []]]]],
         Xml.node trTag none [Xml.node tcTag none [Xml.node pTag none
          [Xml.node rTag none [Xml.node tTag (some "b1") []]]]],
         Xml.node trTag none [Xml.node tcTag none [Xml.node pTag none
          [Xml.node rTag none [Xml.node tTag (some "b2") []]]]],
         Xml.node trTag none [Xml.node tcTag none [Xml.node pTag none
          [Xml.node rTag none [Xml.node tTag (some "b3") []]]]],
         Xml.node trTag none [Xml.node tcTag none [Xml.node pTag none
          [Xml.node rTag none [Xml.node tTag (some "b4") []]]]],
         Xml.node trTag none [Xml.node tcTag none [Xml.node pTag none
          [Xml.node rTag none [Xml.node tTag (some "b5") []]]]]])
      ⟨some "Software Engineer", some "Tech Corp", some [⟨some "n1"⟩, ⟨some "n2"⟩]⟩
      = Except.ok
      (Xml.node "w:tbl" none
        [Xml.node trTag none [Xml.node tcTag none [Xml.node pTag none
          [Xml.node rTag none [Xml.node tTag (some "Software Engineer") []]]]],
         Xml.node trTag none [Xml.node tcTag none [Xml.node pTag none
          [Xml.node rTag none [Xml.node tTag (some "n1") []]]]],
         Xml.node trTag none [Xml.node tcTag none [Xml.node pTag none
          [Xml.node rTag none [Xml.node tTag (some "n2") []]]]]]) ∧
    (findallTag trTag
      (Xml.node "w:tbl" none
        [Xml.node trTag none [Xml.node tcTag none [Xml.node pTag none
          [Xml.node rTag none [Xml.node tTag (some "Software Engineer") []]]]],
         Xml.node trTag none [Xml.node tcTag none [Xml.node pTag none
          [Xml.node rTag none [Xml.node tTag (some "n1") []]]]],
         Xml.node trTag none [Xml.node tcTag none [Xml.node pTag none
          [Xml.node rTag none [Xml.node tTag (some "n2") []]]]]])).length = 1 + 2 := by
  constructor
  · rfl
  · obtain ⟨r0, rest, updated, appended, h1, h2, h3, h4, h5, h6, h7⟩ :=
      rewriteRowReconciliation
        (Xml.node "w:tbl" none
          [Xml.node trTag none [Xml.node tcTag none [Xml.node pTag none
            [Xml.node rTag none [Xml.node tTag (some "Software Engineer") []]]]],
           Xml.node trTag none [Xml.node tcTag none [Xml.node pTag none
            [Xml.node rTag none [Xml.node tTag (some "b1") []]]]],
           Xml.node trTag none [Xml.node tcTag none [Xml.node pTag none
            [Xml.node rTag none [Xml.node tTag (some "b2") []]]]],
           Xml.node trTag none [Xml.node tcTag none [Xml.node pTag none
            [Xml.node rTag none [Xml.node tTag (some "b3") []]]]],
           Xml.node trTag none [Xml.node tcTag none [Xml.node pTag none
            [Xml.node rTag none [Xml.node tTag (some "b4") []]]]],
           Xml.node trTag none [Xml.node tcTag none [Xml.node pTag none
            [Xml.node rTag none [Xml.node tTag (some "b5") []]]]]])
        ⟨some "Software Engineer", some "Tech Corp", some [⟨some "n1"⟩, ⟨some "n2"⟩]⟩
        (Xml.node "w:tbl" none
          [Xml.node trTag none [Xml.node tcTag none [Xml.node pTag none
            [Xml.node rTag none [Xml.node tTag (some "Software Engineer") []]]]],
           Xml.node trTag none [Xml.node tcTag none [Xml.node pTag none
            [Xml.node rTag none [Xml.node tTag (some "n1") []]]]],
           Xml.node trTag none [Xml.node tcTag none [Xml.node pTag none
            [Xml.node rTag none [Xml.node tTag (some "n2") []]]]]])
        rfl
    have hr0 : (Xml.node trTag none [Xml.node tcTag none [Xml.node pTag none
        [Xml.node rTag none [Xml.node tTag (some "Software Engineer") []]]]]) = r0 := by
      have hx : (Xml.node trTag none [Xml.node tcTag none [Xml.node pTag none
          [Xml.node rTag none [Xml.node tTag (some "Software Engineer") []]]]]) ::
          [Xml.node trTag none [Xml.node tcTag none [Xml.node pTag none
            [Xml.node rTag none [Xml.node tTag (some "b1") []]]]],
           Xml.node trTag none [Xml.node tcTag none [Xml.node pTag none
            [Xml.node rTag none [Xml.node tTag (some "b2") []]]]],
           Xml.node trTag none [Xml.node tcTag none [Xml.node pTag none
            [Xml.node rTag none [Xml.node tTag (some "b3") []]]]],
           Xml.node trTag none [Xml.node tcTag none [Xml.node pTag none
            [Xml.node rTag none [Xml.node tTag (some "b4") []]]]],
           Xml.node trTag none [Xml.node tcTag none [Xml.node pTag none
            [Xml.node rTag none [Xml.node tTag (some "b5") []]]]]] = r0 :: rest := by
        rw [← h1]
        rfl
      exact (List.cons.injEq _ _ _ _ ▸ hx).1
    rw [h7, ← hr0]
    rfl
